import Mathlib

/-!
Verification development for the `rent_vec` crate (`src/lib.rs`, `src/iter.rs`).

The crate stores values in a vector of tri-state slots (`Entry`): `Empty`,
`Owned value`, or `Moved redirect`.  A `RentVec<T>` wraps an `InnerRentVec<T>`
(a `tail` bound plus the slot vector) behind a readers-writer lock; each
`push` hands out a `Lease` that records the slot index it last knew.  This
file gives a shallow embedding of the sequential behaviour: the lock and its
poison recovery are not modelled (every operation is an atomic step on the
inner state), and a Rust runtime panic (index out of bounds, usize
underflow, `Option::unwrap` on `None`) is modelled by `Res.panicked` —
a panicking operation produces no new state.

Machine integers: all `usize` values are modelled as `Nat`.  The places
where the Rust code can underflow (`guard.tail - 1` and `replace -= 1`)
panic in debug builds; in release builds they wrap and the very next slot
index is out of bounds, which panics too, so `Res.panicked` is faithful for
both compilation modes.
-/

set_option linter.unusedVariables false

/-- Outcome of a Rust call that can panic: either a panic (thread aborts,
no state observable) or a normal return value. -/
inductive Res (α : Type) where
  | panicked : Res α
  | ok (val : α) : Res α
deriving DecidableEq

/-- `Entry<T>` from `src/lib.rs`: one storage slot. -/
inductive Entry (T : Type) where
  | Empty : Entry T
  | Owned (t : T) : Entry T
  | Moved (e : Nat) : Entry T
deriving DecidableEq

/-- `InnerRentVec<T>` from `src/lib.rs`: the tail hint plus the slot vector.
The lock wrapper `RentVec` adds no sequential state, so this record is the
whole container state. -/
structure InnerRentVec (T : Type) where
  tail : Nat
  items : List (Entry T)
deriving DecidableEq

/-- Number of `Moved` slots; termination measure for lease resolution
(each loop iteration collapses one `Moved` slot to `Empty`). -/
def movedCount {T : Type} (items : List (Entry T)) : Nat :=
  items.countP (fun x => match x with | Entry.Moved _ => true | _ => false)

lemma movedCount_set_empty_lt {T : Type} {items : List (Entry T)} {i e : Nat}
    (h : items[i]? = some (Entry.Moved e)) :
    movedCount (items.set i Entry.Empty) < movedCount items := by
  induction items generalizing i with
  | nil => simp at h
  | cons hd tl ih =>
    cases i with
    | zero =>
      simp only [List.getElem?_cons_zero, Option.some.injEq] at h
      subst h
      simp [movedCount, List.countP_cons]
    | succ n =>
      simp only [List.getElem?_cons_succ] at h
      have hlt := ih h
      simp only [movedCount] at hlt ⊢
      simp only [List.set_cons_succ, List.countP_cons]
      omega

/-- The resolution loop inside `Lease::guard` (`src/lib.rs` lines 108-121):
follow the `Moved` chain from `entry`, collapsing each visited `Moved` slot
to `Empty`, until an `Owned` slot (success: value, final index, updated
slots) or an `Empty`/out-of-range slot (failure: `none`) is reached.
Note: the Rust code overwrites the matched `Moved(e)` before reading `e`
through the retained reference (`*item = Entry::Empty; self.entry = *e;`),
which is undefined behaviour; we model the evident intent, reading `e`
from the slot before the overwrite. -/
def guardChase {T : Type} (items : List (Entry T)) (entry : Nat) :
    Option (T × Nat × List (Entry T)) :=
  match h : items[entry]? with
  | none => none
  | some Entry.Empty => none
  | some (Entry.Owned t) => some (t, entry, items)
  | some (Entry.Moved e) => guardChase (items.set entry Entry.Empty) e
termination_by movedCount items
decreasing_by exact movedCount_set_empty_lt h

/-- `Lease::guard` (`src/lib.rs` lines 106-127): run the resolution loop and
`.unwrap()` the result, so a failed resolution is a panic.  Returns the
value, the updated lease index (`self.entry`), and the updated slots. -/
def Lease.guard {T : Type} (items : List (Entry T)) (entry : Nat) :
    Res (T × Nat × List (Entry T)) :=
  match guardChase items entry with
  | none => Res.panicked
  | some r => Res.ok r

/-- The scan loop inside `RentVec::push` (`src/lib.rs` lines 229-246),
entered with the local `tail` variable: index `items[tail]` (out of range
panics: outer `none`), stop on the first `Empty` (`some (some tail)`),
abort on an `Owned` (`some none`, push will append), and on a `Moved`
check `tail == items.len()` (dead: `tail` just indexed successfully)
before `tail += 1`. -/
def pushScan {T : Type} (items : List (Entry T)) (tail : Nat) :
    Option (Option Nat) :=
  match h : items[tail]? with
  | none => none
  | some Entry.Empty => some (some tail)
  | some (Entry.Owned _) => some none
  | some (Entry.Moved _) =>
    if tail = items.length then some none
    else pushScan items (tail + 1)
termination_by items.length - tail
decreasing_by
  have hlt : tail < items.length := by
    by_contra hge
    rw [List.getElem?_eq_none (Nat.le_of_not_lt hge)] at h
    exact Option.noConfusion h
  omega

/-- `RentVec::push` (`src/lib.rs` lines 222-265): scan for a reusable
`Empty` slot starting at `tail` (only when `tail != items.len()`), else
append; then set `tail = max(tail, entry + 1)`.  Returns the new state and
the index stored in the returned `Lease`. -/
def RentVec.push {T : Type} (g : InnerRentVec T) (item : T) :
    Res (InnerRentVec T × Nat) :=
  match (if g.tail ≠ g.items.length then pushScan g.items g.tail else some none) with
  | none => Res.panicked
  | some (some e) =>
    Res.ok (⟨max g.tail (e + 1), g.items.set e (Entry.Owned item)⟩, e)
  | some none =>
    Res.ok (⟨max g.tail (g.items.length + 1), g.items ++ [Entry.Owned item]⟩,
      g.items.length)

/-- The downward scan inside `RentVec::remove` (`src/lib.rs` lines 200-219):
from `replace`, skip non-`Owned` slots (`replace -= 1` underflows — panics —
at 0), and on the first `Owned` slot execute
`items[replace] = Moved(entry); items[entry] = old value` (an out-of-range
`entry` panics).  Returns the updated slots and the moved-from index. -/
def removeScan {T : Type} (items : List (Entry T)) (entry : Nat) (replace : Nat) :
    Option (List (Entry T) × Nat) :=
  match items[replace]? with
  | none => none
  | some (Entry.Owned t) =>
    if entry < items.length then
      some ((items.set replace (Entry.Moved entry)).set entry (Entry.Owned t), replace)
    else none
  | some _ =>
    if h : replace = 0 then none
    else removeScan items entry (replace - 1)
termination_by replace
decreasing_by omega

/-- `RentVec::remove` (`src/lib.rs` lines 187-220): with
`replace = tail - 1` (underflow at `tail = 0` panics), either clear the
slot and decrement `tail` when `entry == replace`, or relocate the last
`Owned` slot found by the downward scan into `entry`, set
`tail = min(tail, replace)` and return the moved-from index. -/
def RentVec.remove {T : Type} (g : InnerRentVec T) (entry : Nat) :
    Res (InnerRentVec T × Option Nat) :=
  if g.tail = 0 then Res.panicked
  else
    let replace := g.tail - 1
    if entry = replace then
      if entry < g.items.length then
        Res.ok (⟨g.tail - 1, g.items.set entry Entry.Empty⟩, none)
      else Res.panicked
    else
      match removeScan g.items entry replace with
      | none => Res.panicked
      | some (items2, r) => Res.ok (⟨min g.tail r, items2⟩, some r)

/-- `Lease::remove` (`src/lib.rs` lines 128-130): delegate to
`RentVec::remove` on the lease's last recorded index, with no resolution of
`Moved` redirects beforehand. -/
def Lease.remove {T : Type} (g : InnerRentVec T) (entry : Nat) :
    Res (InnerRentVec T × Option Nat) :=
  RentVec.remove g entry

/-- The pop loop inside `RentVec::shrink` (`src/lib.rs` lines 272-274):
pop while the last slot is `Empty`. -/
def popTrailingEmpty {T : Type} (items : List (Entry T)) : List (Entry T) :=
  match h : items.getLast? with
  | some Entry.Empty => popTrailingEmpty items.dropLast
  | _ => items
termination_by items.length
decreasing_by
  have hne : items ≠ [] := by
    intro he
    rw [he] at h
    exact Option.noConfusion h
  have h1 : items.dropLast.length = items.length - 1 := List.length_dropLast items
  have h2 : 0 < items.length := List.length_pos.mpr hne
  omega

/-- `RentVec::shrink` (`src/lib.rs` lines 270-277): drop trailing `Empty`
slots, release capacity (`shrink_to_fit`, no sequential effect), and clamp
`tail` to the new length. -/
def RentVec.shrink {T : Type} (g : InnerRentVec T) : InnerRentVec T :=
  let items := popTrailingEmpty g.items
  ⟨min g.tail items.length, items⟩

/-- A sequence of pushes, threading the state and collecting the lease
indices; panics propagate. -/
def pushAll {T : Type} (g : InnerRentVec T) : List T → Res (InnerRentVec T × List Nat)
  | [] => Res.ok (g, [])
  | v :: vs =>
    match RentVec.push g v with
    | Res.panicked => Res.panicked
    | Res.ok (g', e) =>
      match pushAll g' vs with
      | Res.panicked => Res.panicked
      | Res.ok (g'', es) => Res.ok (g'', e :: es)

/-- A container state together with the recorded indices of the live
leases (in order of creation; `Lease::remove` consumes its lease). -/
structure World (T : Type) where
  vec : InnerRentVec T
  leases : List Nat
deriving DecidableEq

/-- The states reachable through the crate's public API, starting from
`RentVec::new()`: push a value (a new lease is handed out), resolve a live
lease (`Lease::guard`, which rewrites the lease's index), remove a live
lease (consuming it), or shrink.  A panicking call produces no state. -/
inductive Reachable {T : Type} : World T → Prop where
  | init : Reachable ⟨⟨0, []⟩, []⟩
  | pushStep (w : World T) (v : T) (g' : InnerRentVec T) (e : Nat)
      (hw : Reachable w) (hp : RentVec.push w.vec v = Res.ok (g', e)) :
      Reachable ⟨g', w.leases ++ [e]⟩
  | guardStep (w : World T) (i ent e2 : Nat) (v : T) (items' : List (Entry T))
      (hw : Reachable w) (hl : w.leases[i]? = some ent)
      (hg : Lease.guard w.vec.items ent = Res.ok (v, e2, items')) :
      Reachable ⟨⟨w.vec.tail, items'⟩, w.leases.set i e2⟩
  | removeStep (w : World T) (i ent : Nat) (g' : InnerRentVec T) (r : Option Nat)
      (hw : Reachable w) (hl : w.leases[i]? = some ent)
      (hr : Lease.remove w.vec ent = Res.ok (g', r)) :
      Reachable ⟨g', w.leases.eraseIdx i⟩
  | shrinkStep (w : World T) (hw : Reachable w) :
      Reachable ⟨RentVec.shrink w.vec, w.leases⟩

/-! ### Unfolding equations for the loop translations -/

lemma guardChase_step {T : Type} (items : List (Entry T)) (entry : Nat) :
    guardChase items entry =
      match items[entry]? with
      | none => none
      | some Entry.Empty => none
      | some (Entry.Owned t) => some (t, entry, items)
      | some (Entry.Moved e) => guardChase (items.set entry Entry.Empty) e := by
  conv_lhs => rw [guardChase.eq_def]
  cases hx : items[entry]? with
  | none => rfl
  | some v => cases v <;> rfl

lemma pushScan_step {T : Type} (items : List (Entry T)) (tail : Nat) :
    pushScan items tail =
      match items[tail]? with
      | none => none
      | some Entry.Empty => some (some tail)
      | some (Entry.Owned _) => some none
      | some (Entry.Moved _) =>
        if tail = items.length then some none else pushScan items (tail + 1) := by
  conv_lhs => rw [pushScan.eq_def]
  cases hx : items[tail]? with
  | none => rfl
  | some v => cases v <;> rfl

lemma removeScan_step {T : Type} (items : List (Entry T)) (entry replace : Nat) :
    removeScan items entry replace =
      match items[replace]? with
      | none => none
      | some (Entry.Owned t) =>
        if entry < items.length then
          some ((items.set replace (Entry.Moved entry)).set entry (Entry.Owned t), replace)
        else none
      | some _ =>
        if replace = 0 then none else removeScan items entry (replace - 1) := by
  conv_lhs => rw [removeScan.eq_def]
  cases hx : items[replace]? with
  | none => rfl
  | some v => cases v <;> simp

lemma popTrailingEmpty_step {T : Type} (items : List (Entry T)) :
    popTrailingEmpty items =
      match items.getLast? with
      | some Entry.Empty => popTrailingEmpty items.dropLast
      | _ => items := by
  conv_lhs => rw [popTrailingEmpty.eq_def]
  cases hx : items.getLast? with
  | none => rfl
  | some v => cases v <;> rfl

/-! ### Concrete API traces

Trace A: push 10; push 20; remove the first lease (its value 10 is
replaced by 20, whose slot 1 becomes `Moved 0`); the surviving lease still
records the now-stale index 1. -/

lemma reach_A1 : Reachable (⟨⟨1, [Entry.Owned 10]⟩, [0]⟩ : World Nat) := by
  have h := Reachable.pushStep ⟨⟨0, []⟩, []⟩ 10 ⟨1, [Entry.Owned 10]⟩ 0
    Reachable.init (by simp [RentVec.push])
  simpa using h

lemma reach_A2 : Reachable (⟨⟨2, [Entry.Owned 10, Entry.Owned 20]⟩, [0, 1]⟩ : World Nat) := by
  have h := Reachable.pushStep _ 20 ⟨2, [Entry.Owned 10, Entry.Owned 20]⟩ 1
    reach_A1 (by simp [RentVec.push])
  simpa using h

lemma reach_A3 : Reachable (⟨⟨1, [Entry.Owned 20, Entry.Moved 0]⟩, [1]⟩ : World Nat) := by
  have h := Reachable.removeStep _ 0 0 ⟨1, [Entry.Owned 20, Entry.Moved 0]⟩ (some 1)
    reach_A2 (by simp) (by simp [Lease.remove, RentVec.remove, removeScan_step])
  simpa using h

lemma reach_A4 : Reachable (⟨⟨0, [Entry.Moved 1, Entry.Owned 20]⟩, []⟩ : World Nat) := by
  have h := Reachable.removeStep _ 0 1 ⟨0, [Entry.Moved 1, Entry.Owned 20]⟩ (some 0)
    reach_A3 (by simp) (by simp [Lease.remove, RentVec.remove, removeScan_step])
  simpa using h

/-- C1.  The claim says a push scan that finds no `Empty` slot — in
particular when every slot from `tail` to the end is `Moved` — appends a
new slot and completes normally.  The code intends this (`break None` under
the dead `tail == items.len()` test) but the test can never fire: it is
evaluated only right after `items[tail]` indexed successfully, so once
`tail` is incremented past the last (`Moved`) slot the next iteration
indexes out of bounds and panics.  In the reachable state
`items = [Owned 20, Moved 0]`, `tail = 1` (push 10; push 20; remove the
first lease), pushing 30 panics instead of appending. -/
theorem push_panics_on_all_moved_suffix :
    Reachable (⟨⟨1, [Entry.Owned 20, Entry.Moved 0]⟩, [1]⟩ : World Nat) ∧
    RentVec.push (⟨1, [Entry.Owned 20, Entry.Moved 0]⟩ : InnerRentVec Nat) 30 =
      Res.panicked := by
  refine ⟨reach_A3, ?_⟩
  simp [RentVec.push, pushScan_step]

/-- C3.  The claim states that in every reachable state `tail ≤ length`
and no slot at index ≥ `tail` is `Owned` (also the code's own doc comment
on `tail`).  Removing a stale lease refutes the second part: after
push 10; push 20; remove lease 0; remove lease 1 (stale: its value 20 had
been relocated to slot 0), the state is `items = [Moved 1, Owned 20]`,
`tail = 0`, with an `Owned` slot at index `1 ≥ tail`. -/
theorem tail_invariant_violated :
    Reachable (⟨⟨0, [Entry.Moved 1, Entry.Owned 20]⟩, []⟩ : World Nat) ∧
    (⟨0, [Entry.Moved 1, Entry.Owned 20]⟩ : InnerRentVec Nat).tail = 0 ∧
    (⟨0, [Entry.Moved 1, Entry.Owned 20]⟩ : InnerRentVec Nat).items[1]? =
      some (Entry.Owned 20) :=
  ⟨reach_A4, rfl, rfl⟩

/-! Trace B: push 10, 20, 30, 40; remove the leases of 10 and of 20 (each
removal relocates the rightmost owned value down); resolve the lease of 40
(collapsing its redirect); push 50 into the reused `Empty` slot past the
`Moved` run; remove 50's lease; resolve the lease of 30. -/

lemma reach_B3 : Reachable
    (⟨⟨3, [Entry.Owned 10, Entry.Owned 20, Entry.Owned 30]⟩, [0, 1, 2]⟩ : World Nat) := by
  have h := Reachable.pushStep _ 30 ⟨3, [Entry.Owned 10, Entry.Owned 20, Entry.Owned 30]⟩ 2
    reach_A2 (by simp [RentVec.push])
  simpa using h

lemma reach_B4 : Reachable
    (⟨⟨4, [Entry.Owned 10, Entry.Owned 20, Entry.Owned 30, Entry.Owned 40]⟩,
      [0, 1, 2, 3]⟩ : World Nat) := by
  have h := Reachable.pushStep _ 40
    ⟨4, [Entry.Owned 10, Entry.Owned 20, Entry.Owned 30, Entry.Owned 40]⟩ 3
    reach_B3 (by simp [RentVec.push])
  simpa using h

lemma reach_B5 : Reachable
    (⟨⟨3, [Entry.Owned 40, Entry.Owned 20, Entry.Owned 30, Entry.Moved 0]⟩,
      [1, 2, 3]⟩ : World Nat) := by
  have h := Reachable.removeStep _ 0 0
    ⟨3, [Entry.Owned 40, Entry.Owned 20, Entry.Owned 30, Entry.Moved 0]⟩ (some 3)
    reach_B4 (by simp) (by simp [Lease.remove, RentVec.remove, removeScan_step])
  simpa using h

lemma reach_B6 : Reachable
    (⟨⟨2, [Entry.Owned 40, Entry.Owned 30, Entry.Moved 1, Entry.Moved 0]⟩,
      [2, 3]⟩ : World Nat) := by
  have h := Reachable.removeStep _ 0 1
    ⟨2, [Entry.Owned 40, Entry.Owned 30, Entry.Moved 1, Entry.Moved 0]⟩ (some 2)
    reach_B5 (by simp) (by simp [Lease.remove, RentVec.remove, removeScan_step])
  simpa using h

lemma reach_B7 : Reachable
    (⟨⟨2, [Entry.Owned 40, Entry.Owned 30, Entry.Moved 1, Entry.Empty]⟩,
      [2, 0]⟩ : World Nat) := by
  have h := Reachable.guardStep _ 1 3 0 40
    [Entry.Owned 40, Entry.Owned 30, Entry.Moved 1, Entry.Empty]
    reach_B6 (by simp) (by simp [Lease.guard, guardChase_step])
  simpa using h

lemma reach_B8 : Reachable
    (⟨⟨4, [Entry.Owned 40, Entry.Owned 30, Entry.Moved 1, Entry.Owned 50]⟩,
      [2, 0, 3]⟩ : World Nat) := by
  have h := Reachable.pushStep _ 50
    ⟨4, [Entry.Owned 40, Entry.Owned 30, Entry.Moved 1, Entry.Owned 50]⟩ 3
    reach_B7 (by simp [RentVec.push, pushScan_step])
  simpa using h

lemma reach_B9 : Reachable
    (⟨⟨3, [Entry.Owned 40, Entry.Owned 30, Entry.Moved 1, Entry.Empty]⟩,
      [2, 0]⟩ : World Nat) := by
  have h := Reachable.removeStep _ 2 3
    ⟨3, [Entry.Owned 40, Entry.Owned 30, Entry.Moved 1, Entry.Empty]⟩ none
    reach_B8 (by simp) (by simp [Lease.remove, RentVec.remove])
  simpa using h

lemma reach_B10 : Reachable
    (⟨⟨3, [Entry.Owned 40, Entry.Owned 30, Entry.Empty, Entry.Empty]⟩,
      [1, 0]⟩ : World Nat) := by
  have h := Reachable.guardStep _ 0 2 1 30
    [Entry.Owned 40, Entry.Owned 30, Entry.Empty, Entry.Empty]
    reach_B9 (by simp) (by simp [Lease.guard, guardChase_step])
  simpa using h

/-- C9.  `tail` is not a strict partition: in the reachable state after
push 10/20/30/40, remove lease 0, remove lease 1, resolve 40's lease, and
push 50 (which reuses the `Empty` slot 3 past the `Moved` run and raises
`tail` to 4), slot 2 is `Moved` yet lies strictly below `tail`. -/
theorem moved_below_tail_reachable :
    ∃ w : World Nat, Reachable w ∧
      ∃ i e, i < w.vec.tail ∧ w.vec.items[i]? = some (Entry.Moved e) :=
  ⟨⟨⟨4, [Entry.Owned 40, Entry.Owned 30, Entry.Moved 1, Entry.Owned 50]⟩, [2, 0, 3]⟩,
    reach_B8, 2, 1, by decide, rfl⟩

/-- C8.  `Lease::remove` is, definitionally, `RentVec::remove` applied to
the lease's last recorded index: no redirect is followed first.  In the
reachable state `[Owned 40, Owned 30, Moved 1, Moved 0]`, `tail = 2`, the
live lease of value 40 still records the stale index 3 (40 itself lives in
slot 0); removing through it makes the removal target the stale slot 3 —
the relocation scan moves 30 into slot 3 — while the intended value 40
stays `Owned` in slot 0, now orphaned. -/
theorem lease_remove_no_resolution :
    (∀ (T : Type) (g : InnerRentVec T) (entry : Nat),
        Lease.remove g entry = RentVec.remove g entry) ∧
    Reachable (⟨⟨2, [Entry.Owned 40, Entry.Owned 30, Entry.Moved 1, Entry.Moved 0]⟩,
      [2, 3]⟩ : World Nat) ∧
    Lease.remove
      (⟨2, [Entry.Owned 40, Entry.Owned 30, Entry.Moved 1, Entry.Moved 0]⟩ :
        InnerRentVec Nat) 3 =
      Res.ok (⟨1, [Entry.Owned 40, Entry.Moved 3, Entry.Moved 1, Entry.Owned 30]⟩,
        some 1) ∧
    (⟨1, [Entry.Owned 40, Entry.Moved 3, Entry.Moved 1, Entry.Owned 30]⟩ :
      InnerRentVec Nat).items[0]? = some (Entry.Owned 40) := by
  refine ⟨fun T g entry => rfl, reach_B6, ?_, rfl⟩
  simp [Lease.remove, RentVec.remove, removeScan_step]

/-- C4.  The `target == tail-1` branch and the usual relocation behave as
the claim says, and the concrete 10..19 scenario holds (last conjuncts),
but the general description fails when the downward scan's rightmost
`Owned` slot is the target itself: in the reachable state
`[Owned 40, Owned 30, Empty, Empty]`, `tail = 3` (obtained with honest
resolve-before-remove usage), removing the freshly resolved lease of 30 at
target 1 scans down from 2, finds `r = 1 = target`, and the two writes
`items[1] = Moved 1; items[1] = Owned 30` cancel: slot 1 stays `Owned 30`
(nothing is removed, contradicting `remove`'s own doc comment), `tail`
drops to 1, and `Some 1` is returned — instead of slot `r` being left
`Moved(target)` with the value moved. -/
theorem remove_rightmost_equals_target_bug :
    Reachable (⟨⟨3, [Entry.Owned 40, Entry.Owned 30, Entry.Empty, Entry.Empty]⟩,
      [1, 0]⟩ : World Nat) ∧
    RentVec.remove
      (⟨3, [Entry.Owned 40, Entry.Owned 30, Entry.Empty, Entry.Empty]⟩ :
        InnerRentVec Nat) 1 =
      Res.ok (⟨1, [Entry.Owned 40, Entry.Owned 30, Entry.Empty, Entry.Empty]⟩,
        some 1) ∧
    (⟨1, [Entry.Owned 40, Entry.Owned 30, Entry.Empty, Entry.Empty]⟩ :
      InnerRentVec Nat).items[1]? ≠ some (Entry.Moved 1) ∧
    pushAll (⟨0, []⟩ : InnerRentVec Nat) [10, 11, 12, 13, 14, 15, 16, 17, 18, 19] =
      Res.ok (⟨10, [Entry.Owned 10, Entry.Owned 11, Entry.Owned 12, Entry.Owned 13,
        Entry.Owned 14, Entry.Owned 15, Entry.Owned 16, Entry.Owned 17,
        Entry.Owned 18, Entry.Owned 19]⟩, [0, 1, 2, 3, 4, 5, 6, 7, 8, 9]) ∧
    RentVec.remove (⟨10, [Entry.Owned 10, Entry.Owned 11, Entry.Owned 12,
        Entry.Owned 13, Entry.Owned 14, Entry.Owned 15, Entry.Owned 16,
        Entry.Owned 17, Entry.Owned 18, Entry.Owned 19]⟩ : InnerRentVec Nat) 3 =
      Res.ok (⟨9, [Entry.Owned 10, Entry.Owned 11, Entry.Owned 12, Entry.Owned 19,
        Entry.Owned 14, Entry.Owned 15, Entry.Owned 16, Entry.Owned 17,
        Entry.Owned 18, Entry.Moved 3]⟩, some 9) ∧
    Lease.guard ([Entry.Owned 10, Entry.Owned 11, Entry.Owned 12, Entry.Owned 19,
        Entry.Owned 14, Entry.Owned 15, Entry.Owned 16, Entry.Owned 17,
        Entry.Owned 18, Entry.Moved 3] : List (Entry Nat)) 9 =
      Res.ok (19, 3, [Entry.Owned 10, Entry.Owned 11, Entry.Owned 12, Entry.Owned 19,
        Entry.Owned 14, Entry.Owned 15, Entry.Owned 16, Entry.Owned 17,
        Entry.Owned 18, Entry.Empty]) := by
  refine ⟨reach_B10, ?_, by simp, ?_, ?_, ?_⟩
  · simp [RentVec.remove, removeScan_step]
  · simp [pushAll, RentVec.push]
  · simp [RentVec.remove, removeScan_step]
  · simp [Lease.guard, guardChase_step]

/-- C2, counterexample.  The claim says a resolution that lands on `Empty`
is surfaced as a recoverable absence result and that resolution failure is
the only caller-visible failure.  In the code `Lease::guard` ends in
`.unwrap()`: landing on `Empty` panics (modelled `Res.panicked`), and
`RentVec::push` can panic too (C1), here from the reachable state
`[Owned 20, Moved 0]`, `tail = 1`. -/
theorem resolution_failure_not_recoverable_cex :
    Lease.guard ([Entry.Empty] : List (Entry Nat)) 0 = Res.panicked ∧
    RentVec.push (⟨1, [Entry.Owned 20, Entry.Moved 0]⟩ : InnerRentVec Nat) 30 =
      Res.panicked := by
  constructor
  · simp [Lease.guard, guardChase_step]
  · simp [RentVec.push, pushScan_step]

/-- C2, amended.  Resolving a lease whose tracked slot is `Empty` makes
`Lease::guard` unwrap a `None`: a panic, not a recoverable absence value;
and resolution failure is not the only caller-visible failure, since
`push` can also panic (out-of-bounds scan, C1). -/
theorem resolution_failure_surfaced_as_panic :
    (∀ (T : Type) (items : List (Entry T)) (e : Nat),
        items[e]? = some Entry.Empty → Lease.guard items e = Res.panicked) ∧
    RentVec.push (⟨1, [Entry.Owned 20, Entry.Moved 0]⟩ : InnerRentVec Nat) 30 =
      Res.panicked := by
  constructor
  · intro T items e h
    simp [Lease.guard, guardChase_step, h]
  · simp [RentVec.push, pushScan_step]

theorem resolution_failure_surfaced_as_panic_witness :
    Lease.guard ([Entry.Empty, Entry.Owned 5] : List (Entry Nat)) 0 = Res.panicked :=
  resolution_failure_surfaced_as_panic.1 Nat [Entry.Empty, Entry.Owned 5] 0 rfl

/-- C5.  A two-step redirect chain (the value was relocated twice by two
unrelated removals, its lease never resolved): a single resolution returns
the correct value, collapses both intermediate `Moved` placeholders to
`Empty`, and stores the owning slot's index in the lease, so a subsequent
resolution from the updated index finds the `Owned` slot directly. -/
theorem chain_collapse_idempotent {T : Type} (items : List (Entry T))
    (e0 e1 e2 : Nat) (v : T)
    (h0 : items[e0]? = some (Entry.Moved e1))
    (h1 : items[e1]? = some (Entry.Moved e2))
    (h2 : items[e2]? = some (Entry.Owned v))
    (n01 : e0 ≠ e1) (n02 : e0 ≠ e2) (n12 : e1 ≠ e2) :
    Lease.guard items e0 =
      Res.ok (v, e2, (items.set e0 Entry.Empty).set e1 Entry.Empty) ∧
    ((items.set e0 Entry.Empty).set e1 Entry.Empty)[e0]? = some Entry.Empty ∧
    ((items.set e0 Entry.Empty).set e1 Entry.Empty)[e1]? = some Entry.Empty ∧
    Lease.guard ((items.set e0 Entry.Empty).set e1 Entry.Empty) e2 =
      Res.ok (v, e2, (items.set e0 Entry.Empty).set e1 Entry.Empty) := by
  have l0 : e0 < items.length := (List.getElem?_eq_some.mp h0).1
  have l1 : e1 < items.length := (List.getElem?_eq_some.mp h1).1
  have c1 : (items.set e0 Entry.Empty)[e1]? = some (Entry.Moved e2) := by
    rw [List.getElem?_set_ne n01]
    exact h1
  have c2 : ((items.set e0 Entry.Empty).set e1 Entry.Empty)[e2]? =
      some (Entry.Owned v) := by
    rw [List.getElem?_set_ne n12, List.getElem?_set_ne n02]
    exact h2
  have g : guardChase items e0 =
      some (v, e2, (items.set e0 Entry.Empty).set e1 Entry.Empty) := by
    simp only [guardChase_step, h0, c1, c2]
  refine ⟨by simp [Lease.guard, g], ?_, ?_, ?_⟩
  · rw [List.getElem?_set_ne (Ne.symm n01)]
    exact List.getElem?_set_eq_of_lt Entry.Empty l0
  · exact List.getElem?_set_eq_of_lt Entry.Empty (by simpa using l1)
  · simp [Lease.guard, guardChase_step, c2]

theorem chain_collapse_witness :
    Lease.guard ([Entry.Moved 1, Entry.Moved 2, Entry.Owned 9] : List (Entry Nat)) 0 =
      Res.ok (9, 2, [Entry.Empty, Entry.Empty, Entry.Owned 9]) ∧
    Lease.guard ([Entry.Empty, Entry.Empty, Entry.Owned 9] : List (Entry Nat)) 2 =
      Res.ok (9, 2, [Entry.Empty, Entry.Empty, Entry.Owned 9]) := by
  have h := chain_collapse_idempotent
    ([Entry.Moved 1, Entry.Moved 2, Entry.Owned 9] : List (Entry Nat)) 0 1 2 9
    rfl rfl rfl (by decide) (by decide) (by decide)
  exact ⟨by simpa using h.1, by simpa using h.2.2.2⟩

/-! ### Push: the scan only ever selects an `Empty` slot -/

lemma pushScan_empty_of_some {T : Type} :
    ∀ (k : Nat) (items : List (Entry T)) (t e : Nat), items.length - t ≤ k →
      pushScan items t = some (some e) → items[e]? = some Entry.Empty := by
  intro k
  induction k with
  | zero =>
    intro items t e hk h
    rw [pushScan_step] at h
    cases hx : items[t]? with
    | none => rw [hx] at h; simp at h
    | some v =>
      have hlt : t < items.length := (List.getElem?_eq_some.mp hx).1
      omega
  | succ k ih =>
    intro items t e hk h
    rw [pushScan_step] at h
    cases hx : items[t]? with
    | none => rw [hx] at h; simp at h
    | some v =>
      rw [hx] at h
      cases v with
      | Empty =>
        simp only [Option.some.injEq] at h
        subst h
        exact hx
      | Owned t' => simp at h
      | Moved m =>
        have hlt : t < items.length := (List.getElem?_eq_some.mp hx).1
        rw [if_neg (by omega)] at h
        exact ih items (t + 1) e (by omega) h

lemma pushScan_finds_empty {T : Type} {items : List (Entry T)} {t e : Nat}
    (h : pushScan items t = some (some e)) : items[e]? = some Entry.Empty :=
  pushScan_empty_of_some (items.length - t) items t e (le_refl _) h

/-- C10.  When `push` returns, the slot it wrote was previously `Empty` or
is the freshly appended slot at the old length; every `Owned` slot is
unchanged — no stored value loses its value or its index across a push. -/
theorem push_frame {T : Type} (g : InnerRentVec T) (v : T)
    (g' : InnerRentVec T) (e : Nat)
    (h : RentVec.push g v = Res.ok (g', e)) :
    (g.items[e]? = some Entry.Empty ∨ e = g.items.length) ∧
    ∀ (i : Nat) (w : T), g.items[i]? = some (Entry.Owned w) →
      g'.items[i]? = some (Entry.Owned w) := by
  unfold RentVec.push at h
  cases hs : (if g.tail ≠ g.items.length then pushScan g.items g.tail else some none) with
  | none => rw [hs] at h; exact absurd h (by simp)
  | some o =>
    rw [hs] at h
    cases o with
    | none =>
      simp only [Res.ok.injEq, Prod.mk.injEq] at h
      obtain ⟨hg, he⟩ := h
      subst he
      refine ⟨Or.inr rfl, ?_⟩
      intro i w hw
      rw [← hg]
      have hi : i < g.items.length := (List.getElem?_eq_some.mp hw).1
      simp only [List.getElem?_append, if_pos hi]
      exact hw
    | some e0 =>
      simp only [Res.ok.injEq, Prod.mk.injEq] at h
      obtain ⟨hg, he⟩ := h
      subst he
      have hemp : g.items[e0]? = some Entry.Empty := by
        by_cases ht : g.tail ≠ g.items.length
        · rw [if_pos ht] at hs
          exact pushScan_finds_empty hs
        · rw [if_neg ht] at hs
          simp at hs
      refine ⟨Or.inl hemp, ?_⟩
      intro i w hw
      rw [← hg]
      have hne : e0 ≠ i := by
        intro hEq
        rw [hEq] at hemp
        rw [hemp] at hw
        simp at hw
      simp only [List.getElem?_set_ne hne]
      exact hw

theorem push_frame_witness :
    (((⟨0, [Entry.Empty, Entry.Owned 7]⟩ : InnerRentVec Nat).items[0]? =
        some Entry.Empty ∨
      (0 : Nat) = (⟨0, [Entry.Empty, Entry.Owned 7]⟩ : InnerRentVec Nat).items.length) ∧
     ∀ (i : Nat) (w : Nat),
       (⟨0, [Entry.Empty, Entry.Owned 7]⟩ : InnerRentVec Nat).items[i]? =
        some (Entry.Owned w) →
       (⟨1, [Entry.Owned 5, Entry.Owned 7]⟩ : InnerRentVec Nat).items[i]? =
        some (Entry.Owned w)) :=
  push_frame ⟨0, [Entry.Empty, Entry.Owned 7]⟩ 5 ⟨1, [Entry.Owned 5, Entry.Owned 7]⟩ 0
    (by simp [RentVec.push, pushScan_step])

/-! ### Round trip: pushes with no removals -/

lemma push_compact {T : Type} (pre : List (Entry T)) (v : T) :
    RentVec.push ⟨pre.length, pre⟩ v =
      Res.ok (⟨pre.length + 1, pre ++ [Entry.Owned v]⟩, pre.length) := by
  have hm : max pre.length (pre.length + 1) = pre.length + 1 := by omega
  simp [RentVec.push, hm]

lemma pushAll_from_compact {T : Type} (vs : List T) :
    ∀ pre : List (Entry T),
      pushAll ⟨pre.length, pre⟩ vs =
        Res.ok (⟨pre.length + vs.length, pre ++ vs.map Entry.Owned⟩,
          List.range' pre.length vs.length) := by
  induction vs with
  | nil => intro pre; simp [pushAll, List.range']
  | cons v vs ih =>
    intro pre
    have h2 := ih (pre ++ [Entry.Owned v])
    have hl : (pre ++ [Entry.Owned v]).length = pre.length + 1 := by simp
    rw [hl] at h2
    simp only [pushAll, push_compact, h2]
    simp only [Res.ok.injEq, Prod.mk.injEq, InnerRentVec.mk.injEq, List.range'_succ,
      List.length_cons, List.map_cons, List.append_assoc, List.singleton_append]
    and_intros <;> first
    | trivial
    | omega

/-- C6.  Starting from the fresh container, any sequence of pushes with no
removals appends each value in order: lease `i` is handed out for value
`i`, the lease indices `0, …, n-1` are pairwise distinct, and resolving
lease `i` yields exactly the `i`-th pushed value (each value recovered
exactly once). -/
theorem push_roundtrip (vs : List Nat) :
    pushAll (⟨0, []⟩ : InnerRentVec Nat) vs =
      Res.ok (⟨vs.length, vs.map Entry.Owned⟩, List.range vs.length) ∧
    (List.range vs.length).Nodup ∧
    ∀ i v, vs[i]? = some v →
      Lease.guard (vs.map Entry.Owned) i =
        Res.ok (v, i, vs.map Entry.Owned) := by
  refine ⟨?_, List.nodup_range vs.length, ?_⟩
  · have h := pushAll_from_compact vs ([] : List (Entry Nat))
    simpa [List.range_eq_range'] using h
  · intro i v hv
    have hm : (vs.map Entry.Owned)[i]? = some (Entry.Owned v) := by
      rw [List.getElem?_map, hv]
      rfl
    simp [Lease.guard, guardChase_step, hm]

theorem push_roundtrip_witness :
    pushAll (⟨0, []⟩ : InnerRentVec Nat) [7, 8, 9] =
      Res.ok (⟨3, [Entry.Owned 7, Entry.Owned 8, Entry.Owned 9]⟩, [0, 1, 2]) ∧
    Lease.guard ([Entry.Owned 7, Entry.Owned 8, Entry.Owned 9] : List (Entry Nat)) 1 =
      Res.ok (8, 1, [Entry.Owned 7, Entry.Owned 8, Entry.Owned 9]) := by
  have h := push_roundtrip [7, 8, 9]
  exact ⟨by simpa using h.1, by simpa using h.2.2 1 8 rfl⟩

/-! ### Shrink: decomposition and preservation lemmas -/

lemma popTrailingEmpty_decomp_aux {T : Type} :
    ∀ (k : Nat) (items : List (Entry T)), items.length ≤ k →
      ∃ es, items = popTrailingEmpty items ++ es ∧ ∀ x ∈ es, x = Entry.Empty := by
  intro k
  induction k with
  | zero =>
    intro items hk
    have h0 : items = [] := List.length_eq_zero.mp (Nat.le_zero.mp hk)
    subst h0
    exact ⟨[], by rw [popTrailingEmpty_step]; simp, by simp⟩
  | succ k ih =>
    intro items hk
    cases hx : items.getLast? with
    | none =>
      refine ⟨[], ?_, by simp⟩
      rw [popTrailingEmpty_step, hx]
      simp
    | some x =>
      have hne : items ≠ [] := by
        intro h0
        rw [h0] at hx
        simp at hx
      cases x with
      | Empty =>
        have hstep : popTrailingEmpty items = popTrailingEmpty items.dropLast := by
          rw [popTrailingEmpty_step, hx]
        have hdl : items.dropLast.length ≤ k := by
          have h1 := List.length_dropLast items
          have h2 := List.length_pos.mpr hne
          omega
        obtain ⟨es, hes, hall⟩ := ih items.dropLast hdl
        have h3 := List.getLast?_eq_getLast items hne
        rw [hx] at h3
        have h2 : items.getLast hne = Entry.Empty := by
          injection h3 with h3a
          exact h3a.symm
        have hlast : items.dropLast ++ [Entry.Empty] = items := by
          have h1 := List.dropLast_append_getLast hne
          rw [h2] at h1
          exact h1
        refine ⟨es ++ [Entry.Empty], ?_, ?_⟩
        · rw [hstep]
          calc items = items.dropLast ++ [Entry.Empty] := hlast.symm
            _ = (popTrailingEmpty items.dropLast ++ es) ++ [Entry.Empty] := by
                rw [← hes]
            _ = popTrailingEmpty items.dropLast ++ (es ++ [Entry.Empty]) := by
                rw [List.append_assoc]
        · intro y hy
          rcases List.mem_append.mp hy with hy1 | hy2
          · exact hall y hy1
          · simpa using hy2
      | Owned t =>
        refine ⟨[], ?_, by simp⟩
        rw [popTrailingEmpty_step, hx]
        simp
      | Moved m =>
        refine ⟨[], ?_, by simp⟩
        rw [popTrailingEmpty_step, hx]
        simp

lemma shrink_decomp {T : Type} (g : InnerRentVec T) :
    ∃ es, g.items = (RentVec.shrink g).items ++ es ∧ ∀ x ∈ es, x = Entry.Empty := by
  have h := popTrailingEmpty_decomp_aux g.items.length g.items (le_refl _)
  simpa [RentVec.shrink] using h

lemma shrink_preserves_owned {T : Type} (g : InnerRentVec T) (i : Nat) (v : T)
    (h : g.items[i]? = some (Entry.Owned v)) :
    (RentVec.shrink g).items[i]? = some (Entry.Owned v) := by
  obtain ⟨es, hes, hall⟩ := shrink_decomp g
  by_cases hi : i < (RentVec.shrink g).items.length
  · rw [hes, List.getElem?_append, if_pos hi] at h
    exact h
  · exfalso
    rw [hes, List.getElem?_append_right (Nat.le_of_not_lt hi)] at h
    have hmem := List.getElem?_mem h
    have := hall _ hmem
    simp at this

lemma guardChase_append_empty_aux {T : Type} :
    ∀ (k : Nat) (l es : List (Entry T)) (e : Nat) (v : T) (e2 : Nat)
      (its : List (Entry T)),
      movedCount (l ++ es) ≤ k →
      (∀ x ∈ es, x = Entry.Empty) →
      guardChase (l ++ es) e = some (v, e2, its) →
      ∃ its2, guardChase l e = some (v, e2, its2) := by
  intro k
  induction k with
  | zero =>
    intro l es e v e2 its hk hall h
    rw [guardChase_step] at h
    cases hx : (l ++ es)[e]? with
    | none => rw [hx] at h; simp at h
    | some x =>
      rw [hx] at h
      cases x with
      | Empty => simp at h
      | Owned t =>
        simp only [Option.some.injEq, Prod.mk.injEq] at h
        obtain ⟨hv, he2, hits⟩ := h
        subst hv
        subst he2
        have hel : e < l.length := by
          by_contra hge
          rw [List.getElem?_append_right (Nat.le_of_not_lt hge)] at hx
          have := hall _ (List.getElem?_mem hx)
          simp at this
        have hle : l[e]? = some (Entry.Owned t) := by
          rw [List.getElem?_append, if_pos hel] at hx
          exact hx
        exact ⟨l, by simp only [guardChase_step, hle]⟩
      | Moved m =>
        have := movedCount_set_empty_lt hx
        omega
  | succ k ih =>
    intro l es e v e2 its hk hall h
    rw [guardChase_step] at h
    cases hx : (l ++ es)[e]? with
    | none => rw [hx] at h; simp at h
    | some x =>
      rw [hx] at h
      cases x with
      | Empty => simp at h
      | Owned t =>
        simp only [Option.some.injEq, Prod.mk.injEq] at h
        obtain ⟨hv, he2, hits⟩ := h
        subst hv
        subst he2
        have hel : e < l.length := by
          by_contra hge
          rw [List.getElem?_append_right (Nat.le_of_not_lt hge)] at hx
          have := hall _ (List.getElem?_mem hx)
          simp at this
        have hle : l[e]? = some (Entry.Owned t) := by
          rw [List.getElem?_append, if_pos hel] at hx
          exact hx
        exact ⟨l, by simp only [guardChase_step, hle]⟩
      | Moved m =>
        have hel : e < l.length := by
          by_contra hge
          rw [List.getElem?_append_right (Nat.le_of_not_lt hge)] at hx
          have := hall _ (List.getElem?_mem hx)
          simp at this
        have hxl : l[e]? = some (Entry.Moved m) := by
          have hx2 := hx
          rw [List.getElem?_append, if_pos hel] at hx2
          exact hx2
        have hset : (l ++ es).set e Entry.Empty = l.set e Entry.Empty ++ es := by
          rw [List.set_append, if_pos hel]
        rw [hset] at h
        have hcount : movedCount (l.set e Entry.Empty ++ es) ≤ k := by
          have hlt := movedCount_set_empty_lt hx
          rw [hset] at hlt
          omega
        obtain ⟨its2, h2⟩ := ih (l.set e Entry.Empty) es m v e2 its hcount hall h
        refine ⟨its2, ?_⟩
        rw [guardChase_step, hxl]
        exact h2

lemma shrink_preserves_guard {T : Type} (g : InnerRentVec T) (e : Nat) (v : T)
    (e2 : Nat) (its : List (Entry T))
    (h : Lease.guard g.items e = Res.ok (v, e2, its)) :
    ∃ its2, Lease.guard (RentVec.shrink g).items e = Res.ok (v, e2, its2) := by
  obtain ⟨es, hes, hall⟩ := shrink_decomp g
  have hg : guardChase g.items e = some (v, e2, its) := by
    unfold Lease.guard at h
    cases hgc : guardChase g.items e with
    | none => rw [hgc] at h; simp at h
    | some r =>
      rw [hgc] at h
      simp only [Res.ok.injEq] at h
      rw [h]
  rw [hes] at hg
  obtain ⟨its2, h2⟩ := guardChase_append_empty_aux
    (movedCount ((RentVec.shrink g).items ++ es)) (RentVec.shrink g).items es
    e v e2 its (le_refl _) hall hg
  refine ⟨its2, ?_⟩
  unfold Lease.guard
  rw [h2]

/-- C7, counterexample.  Insert 5 values; then remove the last 3 leases in
(ascending) index order through `Lease::remove`, which acts on each
lease's last recorded index without resolving.  Removing lease 2 relocates
value 5 from slot 4 into slot 2, so lease 4 is stale when its turn comes:
its removal targets slot 4 and relocates value 5 back into it.  The final
slot is `Owned`, so `shrink` pops nothing: the backing length stays 5, not
2 as the claim requires. -/
theorem shrink_scenario_ascending_cex :
    pushAll (⟨0, []⟩ : InnerRentVec Nat) [1, 2, 3, 4, 5] =
      Res.ok (⟨5, [Entry.Owned 1, Entry.Owned 2, Entry.Owned 3, Entry.Owned 4,
        Entry.Owned 5]⟩, [0, 1, 2, 3, 4]) ∧
    Lease.remove (⟨5, [Entry.Owned 1, Entry.Owned 2, Entry.Owned 3, Entry.Owned 4,
        Entry.Owned 5]⟩ : InnerRentVec Nat) 2 =
      Res.ok (⟨4, [Entry.Owned 1, Entry.Owned 2, Entry.Owned 5, Entry.Owned 4,
        Entry.Moved 2]⟩, some 4) ∧
    Lease.remove (⟨4, [Entry.Owned 1, Entry.Owned 2, Entry.Owned 5, Entry.Owned 4,
        Entry.Moved 2]⟩ : InnerRentVec Nat) 3 =
      Res.ok (⟨3, [Entry.Owned 1, Entry.Owned 2, Entry.Owned 5, Entry.Empty,
        Entry.Moved 2]⟩, none) ∧
    Lease.remove (⟨3, [Entry.Owned 1, Entry.Owned 2, Entry.Owned 5, Entry.Empty,
        Entry.Moved 2]⟩ : InnerRentVec Nat) 4 =
      Res.ok (⟨2, [Entry.Owned 1, Entry.Owned 2, Entry.Moved 4, Entry.Empty,
        Entry.Owned 5]⟩, some 2) ∧
    RentVec.shrink (⟨2, [Entry.Owned 1, Entry.Owned 2, Entry.Moved 4, Entry.Empty,
        Entry.Owned 5]⟩ : InnerRentVec Nat) =
      ⟨2, [Entry.Owned 1, Entry.Owned 2, Entry.Moved 4, Entry.Empty,
        Entry.Owned 5]⟩ ∧
    (RentVec.shrink (⟨2, [Entry.Owned 1, Entry.Owned 2, Entry.Moved 4, Entry.Empty,
        Entry.Owned 5]⟩ : InnerRentVec Nat)).items.length ≠ 2 := by
  refine ⟨?_, ?_, ?_, ?_, ?_, ?_⟩
  · simp [pushAll, RentVec.push]
  · simp [Lease.remove, RentVec.remove, removeScan_step]
  · simp [Lease.remove, RentVec.remove]
  · simp [Lease.remove, RentVec.remove, removeScan_step]
  · simp [RentVec.shrink, popTrailingEmpty_step]
  · simp [RentVec.shrink, popTrailingEmpty_step]

/-- C7, amended.  `shrink` removes only trailing `Empty` slots (the old
slot vector is the new one plus an all-`Empty` suffix), clamps `tail` to
the new length, never changes the index of any `Owned` slot, and
invalidates no lease (any resolution that succeeded before still yields
the same value and final index).  The 5-value scenario holds when the last
3 leases are removed in descending index order (each lease then still
records its value's true slot; ascending order trips the stale-lease
hazard of §9 — see the counterexample): the backing length becomes 2 and
the two remaining leases resolve to their original values. -/
theorem shrink_safe_amended :
    (∀ (T : Type) (g : InnerRentVec T),
      (∃ es, g.items = (RentVec.shrink g).items ++ es ∧
        ∀ x ∈ es, x = Entry.Empty) ∧
      (RentVec.shrink g).tail = min g.tail (RentVec.shrink g).items.length ∧
      (∀ (i : Nat) (v : T), g.items[i]? = some (Entry.Owned v) →
        (RentVec.shrink g).items[i]? = some (Entry.Owned v)) ∧
      (∀ (e : Nat) (v : T) (e2 : Nat) (its : List (Entry T)),
        Lease.guard g.items e = Res.ok (v, e2, its) →
        ∃ its2, Lease.guard (RentVec.shrink g).items e = Res.ok (v, e2, its2))) ∧
    (pushAll (⟨0, []⟩ : InnerRentVec Nat) [1, 2, 3, 4, 5] =
      Res.ok (⟨5, [Entry.Owned 1, Entry.Owned 2, Entry.Owned 3, Entry.Owned 4,
        Entry.Owned 5]⟩, [0, 1, 2, 3, 4]) ∧
    Lease.remove (⟨5, [Entry.Owned 1, Entry.Owned 2, Entry.Owned 3, Entry.Owned 4,
        Entry.Owned 5]⟩ : InnerRentVec Nat) 4 =
      Res.ok (⟨4, [Entry.Owned 1, Entry.Owned 2, Entry.Owned 3, Entry.Owned 4,
        Entry.Empty]⟩, none) ∧
    Lease.remove (⟨4, [Entry.Owned 1, Entry.Owned 2, Entry.Owned 3, Entry.Owned 4,
        Entry.Empty]⟩ : InnerRentVec Nat) 3 =
      Res.ok (⟨3, [Entry.Owned 1, Entry.Owned 2, Entry.Owned 3, Entry.Empty,
        Entry.Empty]⟩, none) ∧
    Lease.remove (⟨3, [Entry.Owned 1, Entry.Owned 2, Entry.Owned 3, Entry.Empty,
        Entry.Empty]⟩ : InnerRentVec Nat) 2 =
      Res.ok (⟨2, [Entry.Owned 1, Entry.Owned 2, Entry.Empty, Entry.Empty,
        Entry.Empty]⟩, none) ∧
    RentVec.shrink (⟨2, [Entry.Owned 1, Entry.Owned 2, Entry.Empty, Entry.Empty,
        Entry.Empty]⟩ : InnerRentVec Nat) = ⟨2, [Entry.Owned 1, Entry.Owned 2]⟩ ∧
    ([Entry.Owned 1, Entry.Owned 2] : List (Entry Nat)).length = 2 ∧
    Lease.guard ([Entry.Owned 1, Entry.Owned 2] : List (Entry Nat)) 0 =
      Res.ok (1, 0, [Entry.Owned 1, Entry.Owned 2]) ∧
    Lease.guard ([Entry.Owned 1, Entry.Owned 2] : List (Entry Nat)) 1 =
      Res.ok (2, 1, [Entry.Owned 1, Entry.Owned 2])) := by
  constructor
  · intro T g
    exact ⟨shrink_decomp g, rfl, fun i v h => shrink_preserves_owned g i v h,
      fun e v e2 its h => shrink_preserves_guard g e v e2 its h⟩
  · refine ⟨?_, ?_, ?_, ?_, ?_, rfl, ?_, ?_⟩
    · simp [pushAll, RentVec.push]
    · simp [Lease.remove, RentVec.remove]
    · simp [Lease.remove, RentVec.remove]
    · simp [Lease.remove, RentVec.remove]
    · simp [RentVec.shrink, popTrailingEmpty_step]
    · simp [Lease.guard, guardChase_step]
    · simp [Lease.guard, guardChase_step]

theorem shrink_safe_amended_witness :
    (RentVec.shrink (⟨1, [Entry.Owned 3, Entry.Empty]⟩ : InnerRentVec Nat)).items[0]? =
      some (Entry.Owned 3) ∧
    ∃ its2,
      Lease.guard
        (RentVec.shrink (⟨1, [Entry.Owned 3, Entry.Empty]⟩ : InnerRentVec Nat)).items 0 =
      Res.ok (3, 0, its2) :=
  ⟨(shrink_safe_amended.1 Nat ⟨1, [Entry.Owned 3, Entry.Empty]⟩).2.2.1 0 3 rfl,
   (shrink_safe_amended.1 Nat ⟨1, [Entry.Owned 3, Entry.Empty]⟩).2.2.2 0 3 0
     [Entry.Owned 3, Entry.Empty] (by simp [Lease.guard, guardChase_step])⟩
